import Mathlib

/-!
Verification of the SPWN compiler backend: the level-document codec, the
merge/linking stage, the identifier allocator, the trigger-graph optimizer,
and the driver glue from `src/spwn-lang/src/main.rs`.

The driver (`main.rs`) is embedded from the source.  The backend modules it
calls (`levelstring`, `optimize`, the allocator) are not part of the source
excerpt, so they are modelled from the specification, as marked on each
definition.
-/

namespace Spwn

/-- Error taxonomy of the backend, from the spec's error-handling design. -/
inductive CodecError where
  | InvalidFormat
  | NotFound
  | CapacityExceeded
  | UnresolvedReference
  | IOFailure
deriving DecidableEq, Repr

/-! ## Level-document codec (modelled from the spec) -/

/-- Modelled from the spec: the fixed repeating XOR key byte used by the
obfuscation layer of the save container (`levelstring` module, absent from
the excerpt). -/
def xorKeyByte : Nat := 11

/-- Modelled from the spec: the XOR byte-cipher with a fixed repeating
(one-byte) key, applied to a byte sequence. -/
def xorCrypt (data : List Nat) : List Nat :=
  data.map (fun b => b ^^^ xorKeyByte)

/-- First magic byte of the compressed-stream header. -/
def magic1 : Nat := 31

/-- Second magic byte of the compressed-stream header. -/
def magic2 : Nat := 139

/-- Modelled from the spec: the DEFLATE-family compression step, abstracted
to its contract — a header plus enough structure (here a length field)
for decompression to detect structural corruption. -/
def compress (d : List Nat) : List Nat :=
  magic1 :: magic2 :: d.length :: d

/-- Modelled from the spec: structural decompression; fails (`none`) on a
bad header or a payload whose length does not match the recorded one
(the "bad header/checksum" failure of the spec). -/
def decompress (bs : List Nat) : Option (List Nat) :=
  match bs with
  | m1 :: m2 :: n :: rest =>
    if m1 = magic1 ∧ m2 = magic2 ∧ rest.length = n then some rest else none
  | _ => none

/-- Modelled from the spec: the forward pipeline of one container layer —
XOR, then compress. -/
def encodeLayer (d : List Nat) : List Nat :=
  compress (xorCrypt d)

/-- Modelled from the spec: the inverse pipeline of one container layer —
decompress, then XOR. -/
def decodeLayer (bs : List Nat) : Option (List Nat) :=
  match decompress bs with
  | some x => some (xorCrypt x)
  | none => none

/-- A decoded outer container: a directory of named, still-encoded level
payloads. -/
abbrev Dir : Type := List (List Nat × List Nat)

/-- Serialization of one directory entry: length-prefixed name, then
length-prefixed payload. -/
def serializeEntry (e : List Nat × List Nat) : List Nat :=
  e.1.length :: (e.1 ++ (e.2.length :: e.2))

/-- Modelled from the spec: serialization of the outer directory of levels. -/
def serializeDir : Dir → List Nat
  | [] => []
  | e :: rest => serializeEntry e ++ serializeDir rest

/-- Fuelled directory parsing (fuel bounds the number of entries, so the
recursion is structural and the function evaluates by reduction). -/
def parseDirFuel : Nat → List Nat → Option Dir
  | _, [] => some []
  | 0, _ :: _ => none
  | fuel + 1, nLen :: rest =>
    if nLen ≤ rest.length then
      match rest.drop nLen with
      | [] => none
      | pLen :: rest2 =>
        if pLen ≤ rest2.length then
          match parseDirFuel fuel (rest2.drop pLen) with
          | some d => some ((rest.take nLen, rest2.take pLen) :: d)
          | none => none
        else none
    else none

/-- Modelled from the spec: parsing the outer directory of levels from its
decoded byte form. -/
def parseDir (bs : List Nat) : Option Dir :=
  parseDirFuel (bs.length + 1) bs

/-- Decode the outer layer of a document and parse the level directory. -/
def decodeDoc (doc : List Nat) : Option Dir :=
  match decodeLayer doc with
  | some db => parseDir db
  | none => none

/-- Modelled from the spec: locate the requested level — by name when one is
given, otherwise the topmost level of the directory. -/
def findLevel (dir : Dir) (nm : Option (List Nat)) : Option (List Nat × List Nat) :=
  match nm with
  | none => dir.head?
  | some n => dir.find? (fun e => e.1 == n)

/-- Modelled from the spec: `levelstring::get_level_string` — decode the
outer container, locate the requested level, and decode its payload;
`InvalidFormat` on structural decompression failure, `NotFound` when no
level matches. -/
def get_level_string (doc : List Nat) (nm : Option (List Nat)) :
    Except CodecError (List Nat) :=
  match decodeDoc doc with
  | none => .error .InvalidFormat
  | some dir =>
    match findLevel dir nm with
    | none => .error .NotFound
    | some e =>
      match decodeLayer e.2 with
      | none => .error .InvalidFormat
      | some ls => .ok ls

/-- Replace the payload of the targeted level (the named one, or the topmost
when no name is given), leaving every other entry untouched. -/
def replaceLevel (dir : Dir) (nm : Option (List Nat)) (p : List Nat) : Option Dir :=
  match nm with
  | none =>
    match dir with
    | [] => none
    | e :: rest => some ((e.1, p) :: rest)
  | some n =>
    if dir.any (fun e => e.1 == n) then
      some (dir.map (fun e => if e.1 == n then (e.1, p) else e))
    else none

/-- Modelled from the spec: `levelstring::encrypt_level_string` — re-apply
the forward pipeline to the modified inner layer only and splice the result
back into the outer container at the original level's position. -/
def encrypt_level_string (newLs : List Nat) (doc : List Nat)
    (nm : Option (List Nat)) : Except CodecError (List Nat) :=
  match decodeDoc doc with
  | none => .error .InvalidFormat
  | some dir =>
    match replaceLevel dir nm (encodeLayer newLs) with
    | none => .error .NotFound
    | some dir2 => .ok (encodeLayer (serializeDir dir2))

/-! ### Codec round-trip lemmas -/

theorem xorCrypt_xorCrypt (l : List Nat) : xorCrypt (xorCrypt l) = l := by
  have h : ∀ b : Nat, (b ^^^ xorKeyByte) ^^^ xorKeyByte = b := by
    intro b
    rw [Nat.xor_assoc, Nat.xor_self, Nat.xor_zero]
  simp [xorCrypt, List.map_map, Function.comp_def, h]

theorem decompress_compress (d : List Nat) : decompress (compress d) = some d := by
  simp [decompress, compress]

theorem decodeLayer_encodeLayer (d : List Nat) :
    decodeLayer (encodeLayer d) = some d := by
  simp [decodeLayer, encodeLayer, decompress_compress, xorCrypt_xorCrypt]

theorem parseDirFuel_serializeDir (d : Dir) :
    ∀ fuel, d.length < fuel → parseDirFuel fuel (serializeDir d) = some d := by
  induction d with
  | nil =>
    intro fuel _
    cases fuel <;> rfl
  | cons e rest ih =>
    intro fuel hf
    cases fuel with
    | zero => omega
    | succ fuel =>
      have hrest : parseDirFuel fuel (serializeDir rest) = some rest := by
        apply ih
        simp only [List.length_cons] at hf
        omega
      have hser : serializeDir (e :: rest) =
          e.1.length :: (e.1 ++ (e.2.length :: (e.2 ++ serializeDir rest))) := by
        simp [serializeDir, serializeEntry]
      rw [hser]
      simp [parseDirFuel, List.drop_left, List.take_left, hrest]

theorem serializeDir_length_ge (d : Dir) : d.length ≤ (serializeDir d).length := by
  induction d with
  | nil => simp [serializeDir]
  | cons e rest ih =>
    simp only [serializeDir, serializeEntry, List.length_append, List.length_cons]
    omega

theorem parseDir_serializeDir (d : Dir) : parseDir (serializeDir d) = some d := by
  have h := serializeDir_length_ge d
  exact parseDirFuel_serializeDir d _ (by omega)

theorem decodeDoc_encode (d : Dir) :
    decodeDoc (encodeLayer (serializeDir d)) = some d := by
  simp [decodeDoc, decodeLayer_encodeLayer, parseDir_serializeDir]

theorem find?_replaced (dir : Dir) (n : List Nat) (p : List Nat)
    (h : dir.any (fun e => e.1 == n) = true) :
    ∃ nm1, (dir.map (fun e => if e.1 == n then (e.1, p) else e)).find?
      (fun e => e.1 == n) = some (nm1, p) := by
  induction dir with
  | nil => simp at h
  | cons e rest ih =>
    by_cases he : e.1 = n
    · refine ⟨e.1, ?_⟩
      simp [List.find?_cons_of_pos, he]
    · have he' : (e.1 == n) = false := by simpa using he
      have hrest : rest.any (fun e => e.1 == n) = true := by
        simp only [List.any_cons, he', Bool.false_or] at h
        exact h
      obtain ⟨nm1, hfind⟩ := ih hrest
      refine ⟨nm1, ?_⟩
      simp only [List.map_cons, he', if_neg he]
      rw [List.find?_cons_of_neg _ (by simp [he']), hfind]

theorem replaceLevel_findLevel (dir : Dir) (nm : Option (List Nat)) (p : List Nat)
    (dir2 : Dir) (h : replaceLevel dir nm p = some dir2) :
    ∃ nm1, findLevel dir2 nm = some (nm1, p) := by
  match nm with
  | none =>
    match dir with
    | [] => simp [replaceLevel] at h
    | e :: rest =>
      simp only [replaceLevel, Option.some.injEq] at h
      subst h
      exact ⟨e.1, rfl⟩
  | some n =>
    simp only [replaceLevel] at h
    by_cases hany : dir.any (fun e => e.1 == n) = true
    · rw [if_pos hany] at h
      obtain ⟨hd2⟩ := h
      obtain ⟨nm1, hfind⟩ := find?_replaced dir n p hany
      exact ⟨nm1, hfind⟩
    · rw [if_neg hany] at h
      exact absurd h (by simp)

/-- C1: decoding the level produced by `encrypt_level_string` (encode)
recovers the listing exactly. -/
theorem get_encrypt_roundTrip (doc : List Nat) (nm : Option (List Nat))
    (L doc' : List Nat) (h : encrypt_level_string L doc nm = .ok doc') :
    get_level_string doc' nm = .ok L := by
  unfold encrypt_level_string at h
  split at h
  · exact absurd h (by simp)
  · rename_i dir hd
    split at h
    · exact absurd h (by simp)
    · rename_i dir2 hr
      simp only [Except.ok.injEq] at h
      subst h
      obtain ⟨nm1, hfind⟩ := replaceLevel_findLevel dir nm (encodeLayer L) dir2 hr
      simp [get_level_string, decodeDoc_encode, hfind, decodeLayer_encodeLayer]

/-- The sample level name used by the concrete witnesses. -/
def levelName0 : List Nat := [5]

/-- A concrete valid document holding one level. -/
def sampleDoc : List Nat :=
  encodeLayer (serializeDir [(levelName0, encodeLayer [49, 44, 50])])

/-- The document obtained by re-encoding `sampleDoc` with listing `[51]`. -/
def sampleDocNew : List Nat :=
  encodeLayer (serializeDir [(levelName0, encodeLayer [51])])

/-- Witness for C1 at a concrete document and listing. -/
theorem get_encrypt_roundTrip_witness :
    get_level_string sampleDocNew (some levelName0) = .ok [51] :=
  get_encrypt_roundTrip sampleDoc (some levelName0) [51] sampleDocNew (by rfl)

/-- Which directory entries the targeted rewrite must leave alone: every
entry other than the named one, or every entry except the topmost when no
name is given. -/
def entryUntouched (nm : Option (List Nat)) (i : Nat) (e : List Nat × List Nat) : Prop :=
  match nm with
  | none => i ≠ 0
  | some n => e.1 ≠ n

theorem getElem?_map_dir (dir : Dir) (f : List Nat × List Nat → List Nat × List Nat)
    (i : Nat) : (dir.map f)[i]? = (dir[i]?).map f := by
  induction dir generalizing i with
  | nil => simp
  | cons e rest ih =>
    cases i with
    | zero => simp
    | succ j => simp only [List.map_cons, List.getElem?_cons_succ]; exact ih j

/-- C4: a successful re-encode leaves every non-target level's encoded
payload bytes identical, at the same directory position. -/
theorem encrypt_preserves_other_levels (L doc : List Nat) (nm : Option (List Nat))
    (doc' : List Nat) (h : encrypt_level_string L doc nm = .ok doc') :
    ∃ dir dir2, decodeDoc doc = some dir ∧ decodeDoc doc' = some dir2 ∧
      dir2.length = dir.length ∧
      ∀ i e, dir[i]? = some e → entryUntouched nm i e → dir2[i]? = some e := by
  unfold encrypt_level_string at h
  split at h
  · exact absurd h (by simp)
  · rename_i dir hd
    split at h
    · exact absurd h (by simp)
    · rename_i dir2 hr
      simp only [Except.ok.injEq] at h
      subst h
      refine ⟨dir, dir2, hd, decodeDoc_encode dir2, ?_, ?_⟩
      · match nm with
        | none =>
          match dir with
          | [] => simp [replaceLevel] at hr
          | e :: rest =>
            simp only [replaceLevel, Option.some.injEq] at hr
            subst hr
            simp
        | some n =>
          simp only [replaceLevel] at hr
          by_cases hany : dir.any (fun e => e.1 == n) = true
          · rw [if_pos hany] at hr
            obtain ⟨hd2⟩ := hr
            simp
          · rw [if_neg hany] at hr
            exact absurd hr (by simp)
      · intro i e hget huntouched
        match nm with
        | none =>
          match dir with
          | [] => simp [replaceLevel] at hr
          | e0 :: rest =>
            simp only [replaceLevel, Option.some.injEq] at hr
            subst hr
            match i with
            | 0 => exact absurd rfl huntouched
            | j + 1 => simpa using hget
        | some n =>
          simp only [replaceLevel] at hr
          by_cases hany : dir.any (fun e => e.1 == n) = true
          · rw [if_pos hany] at hr
            obtain ⟨hd2⟩ := hr
            rw [getElem?_map_dir, hget]
            have hne : e.1 ≠ n := huntouched
            simp [hne]
          · rw [if_neg hany] at hr
            exact absurd hr (by simp)

/-- A concrete valid document holding two levels. -/
def sampleDoc2 : List Nat :=
  encodeLayer (serializeDir
    [(levelName0, encodeLayer [49]), ([6], encodeLayer [50])])

/-- Witness for C4 at a concrete two-level document: the theorem applied to
a successful concrete re-encode of the first level. -/
theorem encrypt_preserves_other_levels_witness :
    ∃ dir dir2,
      decodeDoc sampleDoc2 = some dir ∧
      decodeDoc (encodeLayer (serializeDir
        [(levelName0, encodeLayer [51]), ([6], encodeLayer [50])])) = some dir2 ∧
      dir2.length = dir.length ∧
      ∀ i e, dir[i]? = some e → entryUntouched (some levelName0) i e →
        dir2[i]? = some e :=
  encrypt_preserves_other_levels [51] sampleDoc2 (some levelName0)
    (encodeLayer (serializeDir
      [(levelName0, encodeLayer [51]), ([6], encodeLayer [50])])) (by rfl)

/-! ## Build driver write discipline (embedded from `main.rs`) -/

/-- The driver's savefile pass, embedded from `main.rs` lines 184–274: read
the document, decode the requested level (exiting before any write on
failure), transform the listing (strip + merge + link, abstracted as the
fallible `f`, matching the `?` on `append_objects`), and only then
re-encode and write the document back.  The second component is the
on-disk document after the pass. -/
def buildWrite (f : List Nat → Except CodecError (List Nat)) (disk : List Nat)
    (nm : Option (List Nat)) : Except CodecError Unit × List Nat :=
  match get_level_string disk nm with
  | .error e => (.error e, disk)
  | .ok ls =>
    match f ls with
    | .error e => (.error e, disk)
    | .ok newLs =>
      match encrypt_level_string newLs disk nm with
      | .error e => (.error e, disk)
      | .ok newDoc => (.ok (), newDoc)

/-- A document whose only level has a deliberately truncated compressed
payload. -/
def truncatedDoc : List Nat :=
  encodeLayer (serializeDir [(levelName0, (encodeLayer [49]).dropLast)])

/-- C3: every failing build leaves the on-disk document byte-unchanged, and
a truncated compressed payload in particular fails with `InvalidFormat`
without any write. -/
theorem build_failure_atomic :
    (∀ (f : List Nat → Except CodecError (List Nat)) (disk : List Nat)
        (nm : Option (List Nat)) (e : CodecError),
        (buildWrite f disk nm).1 = .error e → (buildWrite f disk nm).2 = disk)
    ∧ get_level_string truncatedDoc (some levelName0) = .error .InvalidFormat
    ∧ ∀ f : List Nat → Except CodecError (List Nat),
        (buildWrite f truncatedDoc (some levelName0)).2 = truncatedDoc := by
  refine ⟨?_, by rfl, ?_⟩
  · intro f disk nm e h
    unfold buildWrite at h ⊢
    cases hg : get_level_string disk nm with
    | error e0 => simp [hg]
    | ok ls =>
      cases hf : f ls with
      | error e0 => simp [hg, hf]
      | ok newLs =>
        cases he : encrypt_level_string newLs disk nm with
        | error e0 => simp [hg, hf, he]
        | ok newDoc =>
          simp [hg, hf, he] at h
  · intro f
    rfl

/-- Witness for C3: the general atomicity clause applied at the concrete
truncated document. -/
theorem build_failure_atomic_witness :
    (buildWrite (fun x => .ok x) truncatedDoc (some levelName0)).2 =
      truncatedDoc :=
  build_failure_atomic.1 (fun x => .ok x) truncatedDoc (some levelName0)
    .InvalidFormat (by rfl)

/-! ## Merge/linking stage (modelled from the spec) -/

/-- A target object: a mapping from small integer property keys to values
(identifier values are integers). -/
structure GdObj where
  props : List (Nat × Nat)
deriving DecidableEq, Repr

/-- Modelled from the spec: the reserved "generated-by-this-compiler"
marker property key. -/
def markerKey : Nat := 108

/-- An object carries the generation marker when one of its properties uses
the marker key. -/
def hasMarker (o : GdObj) : Bool :=
  o.props.any (fun p => p.1 == markerKey)

/-- Modelled from the spec: `levelstring::remove_spwn_objects` — remove
every object carrying the generation marker (`strip_prior_generation`). -/
def remove_spwn_objects (l : List GdObj) : List GdObj :=
  l.filter (fun o => !hasMarker o)

/-- Mark one generated object with the generation marker. -/
def markObj (o : GdObj) : GdObj :=
  ⟨(markerKey, 1) :: o.props⟩

/-- Property keys of the four identifier namespaces, in reporting order:
groups, colors, block-IDs, item-IDs. -/
def nsKeys : List Nat := [57, 21, 80, 95]

/-- Identifier values an object uses in the namespace of key `k`. -/
def idsAtKey (o : GdObj) (k : Nat) : List Nat :=
  (o.props.filter (fun p => p.1 == k)).map (fun p => p.2)

/-- Highest identifier of namespace key `k` observed in a listing. -/
def maxIdAtKey (l : List GdObj) (k : Nat) : Nat :=
  ((l.map (fun o => idsAtKey o k)).flatten).foldr max 0

/-- Modelled from the spec: the per-namespace `UsageCounters` of a listing,
one per namespace, each tracking the highest identifier observed. -/
def usedIdsOf (l : List GdObj) : List Nat :=
  nsKeys.map (maxIdAtKey l)

/-- Modelled from the spec: `levelstring::append_objects` (`merge`) —
append the generated objects, each freshly marked with the generation
marker, to the existing listing, returning the combined listing and the
per-namespace usage counters. -/
def append_objects (objects : List GdObj) (existing : List GdObj) :
    List GdObj × List Nat :=
  let newLs := existing ++ objects.map markObj
  (newLs, usedIdsOf newLs)

theorem hasMarker_markObj (o : GdObj) : hasMarker (markObj o) = true := by
  simp [hasMarker, markObj]

theorem remove_spwn_objects_marked (G : List GdObj) :
    remove_spwn_objects (G.map markObj) = [] := by
  simp [remove_spwn_objects, List.filter_eq_nil_iff, hasMarker_markObj]

theorem remove_spwn_objects_clean (L : List GdObj)
    (h : ∀ o ∈ L, hasMarker o = false) : remove_spwn_objects L = L := by
  rw [remove_spwn_objects, List.filter_eq_self]
  intro o ho
  simp [h o ho]

/-- The one-object listing that already carries the generation marker,
refuting C6 as universally stated. -/
def markedObj : GdObj := ⟨[(markerKey, 1)]⟩

/-- Counterexample to C6 as stated: on a listing that already contains a
marker-carrying object (which the spec's LevelListing explicitly allows),
rebuilding after stripping does not reproduce the first merge. -/
theorem rebuild_idempotent_cex :
    append_objects [] (remove_spwn_objects (append_objects [] [markedObj]).1) ≠
      append_objects [] [markedObj] := by
  decide

/-- C6 (amended): rebuilding is idempotent whenever the existing listing
carries no prior-generation marker — which the driver guarantees by
stripping before the first merge. -/
theorem rebuild_idempotent (L G : List GdObj)
    (h : ∀ o ∈ L, hasMarker o = false) :
    append_objects G (remove_spwn_objects (append_objects G L).1) =
      append_objects G L := by
  have hstrip : remove_spwn_objects (L ++ G.map markObj) = L := by
    rw [remove_spwn_objects, List.filter_append]
    rw [← remove_spwn_objects, ← remove_spwn_objects]
    rw [remove_spwn_objects_marked, remove_spwn_objects_clean L h, List.append_nil]
  show append_objects G (remove_spwn_objects (L ++ G.map markObj)) = _
  rw [hstrip]

/-- Witness for C6 (amended) at a concrete clean listing. -/
theorem rebuild_idempotent_witness :
    append_objects [⟨[(57, 3)]⟩]
        (remove_spwn_objects
          (append_objects [⟨[(57, 3)]⟩] [⟨[(57, 10)]⟩]).1) =
      append_objects [⟨[(57, 3)]⟩] [⟨[(57, 10)]⟩] :=
  rebuild_idempotent [⟨[(57, 10)]⟩] [⟨[(57, 3)]⟩] (by decide)

/-! ## Output modes (embedded from `main.rs`) -/

/-- The listing the driver merges into, embedded from `main.rs` lines
185–211: in save-artifact mode the decoded, stripped existing listing; in
plain-text (console) mode the empty listing (`String::new()`). -/
def levelStringFor : Option (List GdObj) → List GdObj
  | some existing => remove_spwn_objects existing
  | none => []

/-- The merged listing a build produces in the given output mode. -/
def newLsFor (mode : Option (List GdObj)) (objects : List GdObj) : List GdObj :=
  (append_objects objects (levelStringFor mode)).1

/-- Counterexample to C8 as stated: with a non-empty existing level, the
save-artifact mode and the plain-text mode produce different merged
listings. -/
theorem output_modes_cex :
    newLsFor (some [⟨[(57, 10)]⟩]) [] ≠ newLsFor none [] := by
  decide

/-- C8 (amended): both modes produce the merged listing with the same merge
function; they coincide exactly when the stripped existing listing is empty
(the plain-text mode merges into the empty listing). -/
theorem output_modes_agree_iff (existing objects : List GdObj) :
    newLsFor (some existing) objects = newLsFor none objects ↔
      remove_spwn_objects existing = [] := by
  show remove_spwn_objects existing ++ objects.map markObj =
      [] ++ objects.map markObj ↔ _
  constructor
  · intro h
    have hlen := congrArg List.length h
    simp only [List.length_append, List.nil_append, List.length_nil] at hlen
    exact List.eq_nil_of_length_eq_zero (by omega)
  · intro h
    rw [h]

/-! ## Usage reporting (embedded from `main.rs`) -/

/-- Names of the four namespaces, in the driver's reporting order. -/
def nsNames : List String := ["groups", "colors", "block IDs", "item IDs"]

/-- The reporting loop of `main.rs` lines 228–239: pair each usage count
with its namespace name and print those with a positive count. -/
def reportUsedIds (counts : List Nat) : List (Nat × String) :=
  (counts.zip nsNames).filter (fun p => decide (0 < p.1))

/-- Counterexample to C9 as stated: with three namespaces unused, the
operator is shown one count, not four. -/
theorem report_counts_cex : (reportUsedIds [0, 5, 0, 0]).length ≠ 4 := by
  decide

theorem getD_mem_zip (l1 : List Nat) (l2 : List String) :
    ∀ i, i < l1.length → i < l2.length →
      (l1.getD i 0, l2.getD i "") ∈ l1.zip l2 := by
  induction l1 generalizing l2 with
  | nil => intro i hi; simp at hi
  | cons a l1 ih =>
    intro i hi1 hi2
    cases l2 with
    | nil => simp at hi2
    | cons b l2 =>
      cases i with
      | zero => simp
      | succ j =>
        simp only [List.zip_cons_cons, List.getD_cons_succ, List.mem_cons]
        right
        exact ih l2 j (by simpa using hi1) (by simpa using hi2)

/-- C9 (amended): every namespace with a positive usage count is surfaced,
paired with its name in reporting order, and only positive counts are
surfaced. -/
theorem report_counts_amended (counts : List Nat) (hl : counts.length = 4) :
    (∀ i, i < 4 → 0 < counts.getD i 0 →
      (counts.getD i 0, nsNames.getD i "") ∈ reportUsedIds counts) ∧
    ∀ p ∈ reportUsedIds counts, 0 < p.1 := by
  constructor
  · intro i hi hpos
    rw [reportUsedIds, List.mem_filter]
    constructor
    · exact getD_mem_zip counts nsNames i (by omega) (by simp [nsNames]; omega)
    · simpa using hpos
  · intro p hp
    rw [reportUsedIds, List.mem_filter] at hp
    simpa using hp.2

/-- Witness for C9 (amended) at a concrete counter vector. -/
theorem report_counts_amended_witness :
    (∀ i, i < 4 → 0 < ([3, 0, 2, 1] : List Nat).getD i 0 →
      (([3, 0, 2, 1] : List Nat).getD i 0, nsNames.getD i "") ∈
        reportUsedIds [3, 0, 2, 1]) ∧
    ∀ p ∈ reportUsedIds [3, 0, 2, 1], 0 < p.1 :=
  report_counts_amended [3, 0, 2, 1] (by rfl)

/-! ## Identifier allocator (modelled from the spec) -/

/-- Allocator state: per namespace (indexed 0–3), the identifiers currently
known to be in use — ClosedGroups, identifiers scanned via UsageCounters,
and the identifiers already allocated this run. -/
structure AllocState where
  known : List (List Nat)
deriving DecidableEq, Repr

/-- Modelled from the spec: the fixed maximum of a namespace's value space,
defined by the target substrate. -/
def nsCap (_ns : Nat) : Nat := 999

/-- Identifiers known to be in use in one namespace. -/
def knownIn (st : AllocState) (ns : Nat) : List Nat :=
  st.known.getD ns []

/-- Highest identifier known to be in use in one namespace. -/
def maxKnown (st : AllocState) (ns : Nat) : Nat :=
  (knownIn st ns).foldr max 0

/-- Modelled from the spec: `reserve(namespace)` — return an identifier
strictly greater than every identifier currently known to be in use in
that namespace and immediately mark it in use; fail with
`CapacityExceeded` when the namespace's value space is exhausted. -/
def reserve (st : AllocState) (ns : Nat) : Except CodecError (Nat × AllocState) :=
  let fresh := maxKnown st ns + 1
  if nsCap ns < fresh then .error .CapacityExceeded
  else .ok (fresh, ⟨st.known.set ns (fresh :: knownIn st ns)⟩)

/-- Run a sequence of reservations (one build's allocation trace),
collecting the `(namespace, identifier)` pairs handed out. -/
def runReserves (st : AllocState) :
    List Nat → Except CodecError (List (Nat × Nat) × AllocState)
  | [] => .ok ([], st)
  | ns :: rest =>
    match reserve st ns with
    | .error e => .error e
    | .ok (i, st') =>
      match runReserves st' rest with
      | .error e => .error e
      | .ok (out, st1) => .ok ((ns, i) :: out, st1)

theorem le_foldr_max (l : List Nat) : ∀ x ∈ l, x ≤ l.foldr max 0 := by
  induction l with
  | nil => simp
  | cons a l ih =>
    intro x hx
    rcases List.mem_cons.mp hx with h | h
    · subst h
      exact le_max_left _ _
    · exact le_trans (ih x h) (le_max_right _ _)

theorem getD_set_self (l : List (List Nat)) :
    ∀ i v, i < l.length → (l.set i v).getD i [] = v := by
  induction l with
  | nil => intro i v hi; simp at hi
  | cons a l ih =>
    intro i v hi
    cases i with
    | zero => rfl
    | succ j => exact ih j v (by simpa using hi)

theorem getD_set_other (l : List (List Nat)) :
    ∀ i j v, i ≠ j → (l.set i v).getD j [] = l.getD j [] := by
  induction l with
  | nil => intro i j v _; simp
  | cons a l ih =>
    intro i j v hij
    cases i with
    | zero =>
      cases j with
      | zero => exact absurd rfl hij
      | succ j2 => rfl
    | succ i2 =>
      cases j with
      | zero => rfl
      | succ j2 => exact ih i2 j2 v (by omega)

theorem reserve_lt (st : AllocState) (ns : Nat) (i : Nat) (st' : AllocState)
    (h : reserve st ns = .ok (i, st')) : ∀ x ∈ knownIn st ns, x < i := by
  simp only [reserve] at h
  split at h
  · exact absurd h (by simp)
  · simp only [Except.ok.injEq, Prod.mk.injEq] at h
    obtain ⟨hi, _⟩ := h
    simp only [maxKnown] at hi
    intro x hx
    have := le_foldr_max (knownIn st ns) x hx
    omega

theorem reserve_known_self (st : AllocState) (ns : Nat) (i : Nat) (st' : AllocState)
    (hns : ns < st.known.length) (h : reserve st ns = .ok (i, st')) :
    knownIn st' ns = i :: knownIn st ns := by
  simp only [reserve] at h
  split at h
  · exact absurd h (by simp)
  · simp only [Except.ok.injEq, Prod.mk.injEq] at h
    obtain ⟨hi, hst⟩ := h
    subst hi
    subst hst
    exact getD_set_self st.known ns _ hns

theorem reserve_known_mono (st : AllocState) (ns : Nat) (i : Nat) (st' : AllocState)
    (hns : ns < st.known.length) (h : reserve st ns = .ok (i, st')) :
    ∀ m x, x ∈ knownIn st m → x ∈ knownIn st' m := by
  intro m x hx
  by_cases hm : ns = m
  · subst hm
    rw [reserve_known_self st ns i st' hns h]
    exact List.mem_cons_of_mem _ hx
  · simp only [reserve] at h
    split at h
    · exact absurd h (by simp)
    · simp only [Except.ok.injEq, Prod.mk.injEq] at h
      obtain ⟨hi, hst⟩ := h
      subst hst
      show x ∈ (st.known.set ns _).getD m []
      rw [getD_set_other st.known ns m _ hm]
      exact hx

theorem reserve_length (st : AllocState) (ns : Nat) (i : Nat) (st' : AllocState)
    (h : reserve st ns = .ok (i, st')) : st'.known.length = st.known.length := by
  simp only [reserve] at h
  split at h
  · exact absurd h (by simp)
  · simp only [Except.ok.injEq, Prod.mk.injEq] at h
    obtain ⟨_, hst⟩ := h
    subst hst
    simp

theorem runReserves_fresh (ops : List Nat) :
    ∀ (st : AllocState) (out : List (Nat × Nat)) (st1 : AllocState),
      (∀ ns ∈ ops, ns < st.known.length) →
      runReserves st ops = .ok (out, st1) →
      (∀ p ∈ out, p.2 ∉ knownIn st p.1) ∧
        List.Pairwise (fun p q => p.1 = q.1 → p.2 ≠ q.2) out := by
  induction ops with
  | nil =>
    intro st out st1 _ h
    simp only [runReserves, Except.ok.injEq, Prod.mk.injEq] at h
    obtain ⟨hout, _⟩ := h
    subst hout
    simp
  | cons ns rest ih =>
    intro st out st1 hwf h
    cases hr : reserve st ns with
    | error e => simp [runReserves, hr] at h
    | ok p =>
      obtain ⟨i, st'⟩ := p
      cases hrun : runReserves st' rest with
      | error e => simp [runReserves, hr, hrun] at h
      | ok q =>
        obtain ⟨out', st''⟩ := q
        simp only [runReserves, hr, hrun] at h
        simp only [Except.ok.injEq, Prod.mk.injEq] at h
        obtain ⟨hout, _⟩ := h
        subst hout
        have hns : ns < st.known.length := hwf ns (by simp)
        have hlen := reserve_length st ns i st' hr
        have hwf' : ∀ m ∈ rest, m < st'.known.length := by
          intro m hm
          rw [hlen]
          exact hwf m (by simp [hm])
        obtain ⟨hfresh', hpair'⟩ := ih st' out' st'' hwf' hrun
        constructor
        · intro p hp
          rcases List.mem_cons.mp hp with hph | hpt
          · subst hph
            intro hmem
            exact absurd rfl (Nat.ne_of_lt (reserve_lt st ns i st' hr i hmem)).symm
          · intro hmem
            exact hfresh' p hpt
              (reserve_known_mono st ns i st' hns hr p.1 p.2 hmem)
        · refine List.Pairwise.cons ?_ hpair'
          intro q hq heq
          have hqmem : (q.2 : Nat) ∉ knownIn st' q.1 := hfresh' q hq
          have : i ∈ knownIn st' q.1 := by
            rw [← heq, reserve_known_self st ns i st' hns hr]
            simp
          intro hiq
          rw [← hiq] at hqmem
          exact hqmem this

/-- C7: every identifier handed out by `reserve` during one build is absent
from the initially known set of its namespace (ClosedGroups and
UsageCounters-scanned identifiers) and distinct from every other identifier
reserved in the same namespace that run; and `reserve` fails with
`CapacityExceeded` exactly when the namespace's fixed value space is
exhausted. -/
theorem allocator_freshness :
    (∀ (st : AllocState) (ops : List Nat) (out : List (Nat × Nat))
        (st1 : AllocState),
        (∀ ns ∈ ops, ns < st.known.length) →
        runReserves st ops = .ok (out, st1) →
        (∀ p ∈ out, p.2 ∉ knownIn st p.1) ∧
          List.Pairwise (fun p q => p.1 = q.1 → p.2 ≠ q.2) out)
    ∧ ∀ (st : AllocState) (ns : Nat), nsCap ns < maxKnown st ns + 1 →
        reserve st ns = .error .CapacityExceeded := by
  constructor
  · intro st ops out st1 hwf h
    exact runReserves_fresh ops st out st1 hwf h
  · intro st ns hcap
    simp only [reserve]
    rw [if_pos hcap]

/-- Witness for C7: a concrete run of three reservations over a state
seeded with ClosedGroups `{1, 2}` in namespace 0 and a scanned maximum of 5
in namespace 1. -/
theorem allocator_freshness_witness :
    (∀ p ∈ [((0 : Nat), (3 : Nat)), (0, 4), (1, 6)],
        p.2 ∉ knownIn ⟨[[1, 2], [5], [], []]⟩ p.1) ∧
      List.Pairwise (fun p q => p.1 = q.1 → p.2 ≠ q.2)
        [((0 : Nat), (3 : Nat)), (0, 4), (1, 6)] :=
  allocator_freshness.1 ⟨[[1, 2], [5], [], []]⟩ [0, 0, 1]
    [(0, 3), (0, 4), (1, 6)] ⟨[[4, 3, 1, 2], [6, 5], [], []]⟩
    (by decide) (by rfl)
/-! ## Trigger-graph IR, optimizer and per-frame semantics (modelled from
the spec) -/

/-- An activation condition: a boolean combination (literal, variable,
and/or/not) of identifier-active predicates, per the spec's expression-tree
design note. -/
inductive Cond where
  | lit (b : Bool)
  | var (g : Nat)
  | and (a b : Cond)
  | or (a b : Cond)
  | not (a : Cond)
deriving DecidableEq, Repr

/-- Evaluate a condition against the current per-identifier activation. -/
def evalCond (act : Nat → Bool) : Cond → Bool
  | .lit b => b
  | .var g => act g
  | .and a b => evalCond act a && evalCond act b
  | .or a b => evalCond act a || evalCond act b
  | .not a => !evalCond act a

/-- Identifiers a condition reads. -/
def condVars : Cond → List Nat
  | .lit _ => []
  | .var g => [g]
  | .and a b => condVars a ++ condVars b
  | .or a b => condVars a ++ condVars b
  | .not a => condVars a

/-- A trigger object: an activation condition, a target identifier, and a
delay in frames. -/
structure Trigger where
  cond : Cond
  target : Nat
  delay : Nat
deriving DecidableEq, Repr

/-- A function unit's ordered object list (`obj_list` of one `FunctionID`). -/
abbrev FuncId : Type := List Trigger

/-- Flatten the function units into one trigger list, in unit order. -/
def flattenUnits (fs : List FuncId) : List Trigger :=
  fs.flatten

/-- Identifiers read by any trigger of the graph. -/
def allVars (ts : List Trigger) : List Nat :=
  (ts.map (fun t => condVars t.cond)).flatten

/-- One sweep of dead-object elimination keeps a trigger exactly when its
target is read by some trigger of the current graph or belongs to
ClosedGroups.  Iterating this sweep to its fixed point (done by `optimize`)
yields the spec's formulation, in which only *surviving* readers count. -/
def keepTrigger (closed : List Nat) (ts : List Trigger) (t : Trigger) : Bool :=
  decide (t.target ∈ closed) || decide (t.target ∈ allVars ts)

/-- Modelled from the spec: the dead-object-elimination pass, applied to
each function unit against the whole flattened graph. -/
def deadElimPass (closed : List Nat) (fs : List FuncId) : List FuncId :=
  fs.map (fun u => u.filter (keepTrigger closed (flattenUnits fs)))

/-- Absorption test for conjunctions: `x ∧ (p ∨ q) = x` when `x` is `p` or
`q`. -/
def absorbs (x : Cond) : Cond → Bool
  | .or p q => x == p || x == q
  | _ => false

/-- Absorption test for disjunctions: `x ∨ (p ∧ q) = x` when `x` is `p` or
`q`. -/
def coabsorbs (x : Cond) : Cond → Bool
  | .and p q => x == p || x == q
  | _ => false

/-- Simplify a conjunction of two already-simplified conditions: constant
annihilation/identity, idempotence, complement elimination, absorption. -/
def andSimp (a b : Cond) : Cond :=
  if a = Cond.lit false ∨ b = Cond.lit false then Cond.lit false
  else if a = Cond.lit true then b
  else if b = Cond.lit true then a
  else if a = b then a
  else if a = Cond.not b ∨ b = Cond.not a then Cond.lit false
  else if absorbs a b then a
  else if absorbs b a then b
  else Cond.and a b

/-- Simplify a disjunction of two already-simplified conditions, dual to
`andSimp`. -/
def orSimp (a b : Cond) : Cond :=
  if a = Cond.lit true ∨ b = Cond.lit true then Cond.lit true
  else if a = Cond.lit false then b
  else if b = Cond.lit false then a
  else if a = b then a
  else if a = Cond.not b ∨ b = Cond.not a then Cond.lit true
  else if coabsorbs a b then a
  else if coabsorbs b a then b
  else Cond.or a b

/-- Simplify a negation of an already-simplified condition: constant
folding and double-negation elimination. -/
def notSimp : Cond → Cond
  | .lit b => .lit (!b)
  | .not a => a
  | c => .not c

/-- Modelled from the spec: boolean condition minimization as a pure
function over the expression tree, applying constant folding, idempotence,
complement elimination, absorption and double-negation bottom-up. -/
def simplifyCond : Cond → Cond
  | .and a b => andSimp (simplifyCond a) (simplifyCond b)
  | .or a b => orSimp (simplifyCond a) (simplifyCond b)
  | .not a => notSimp (simplifyCond a)
  | c => c

/-- Replace a trigger's condition by its minimized form. -/
def simpTrigger (tr : Trigger) : Trigger :=
  { tr with cond := simplifyCond tr.cond }

/-- Modelled from the spec: constant folding of conditions — minimize each
trigger's condition and delete the triggers whose condition folded to
constant false; a condition folded to constant true is the direct
pass-through (the trigger fires unconditionally after its delay). -/
def constFoldPass (fs : List FuncId) : List FuncId :=
  fs.map (fun u => (u.map simpTrigger).filter (fun tr => !(tr.cond == Cond.lit false)))

/-- Modelled from the spec: the boolean-condition-minimization pass. -/
def boolMinPass (fs : List FuncId) : List FuncId :=
  fs.map (fun u => u.map simpTrigger)

/-- The trigger replacing a coalesced chain: the head's condition, the
tail's target, and the combined delay.  The substrate's delay-combination
rule (a spec-level configuration point) is fixed here by the modelled
per-frame semantics: each hop costs its delay plus one propagation frame,
so the middle identifier's hop contributes `delay₁ + delay₂ + 1`. -/
def coalesced (tr1 tr2 : Trigger) : Trigger :=
  { cond := tr1.cond, target := tr2.target, delay := tr1.delay + tr2.delay + 1 }

/-- Side conditions for coalescing the chain `tr1 → B → tr2.target`, with
`B = tr1.target`: `B` is not externally visible, `tr2` is `B`'s single
reader and reads nothing else, `tr1` is `B`'s single incoming edge and does
not read `B` itself, and the chain is not a self-loop. -/
def chainCandidate (closed : List Nat) (ts : List Trigger) (tr1 tr2 : Trigger) : Bool :=
  decide (tr1.target ∉ closed) &&
  (tr2.cond == Cond.var tr1.target) &&
  decide (tr2.target ≠ tr1.target) &&
  decide (tr1.target ∉ condVars tr1.cond) &&
  ((ts.filter (fun tr => tr.target == tr1.target)).length == 1) &&
  ((ts.filter (fun tr => decide (tr1.target ∈ condVars tr.cond))).length == 1)

/-- All ordered pairs of triggers of one unit. -/
def chainPairs (u : List Trigger) : List (Trigger × Trigger) :=
  (u.map (fun tr1 => u.map (fun tr2 => (tr1, tr2)))).flatten

/-- Find a coalescable chain inside one unit, judged against the whole
flattened graph. -/
def findChain (closed : List Nat) (ts : List Trigger) (u : List Trigger) :
    Option (Trigger × Trigger) :=
  (chainPairs u).find? (fun p => chainCandidate closed ts p.1 p.2)

/-- Remove (all copies of) the two chain triggers. -/
def removeTwo (tr1 tr2 : Trigger) (l : List Trigger) : List Trigger :=
  l.filter (fun tr => decide (tr ≠ tr1) && decide (tr ≠ tr2))

/-- Rewrite the first unit containing a coalescable chain; later chains are
reached by the fixed-point iteration. -/
def coalesceGo (closed : List Nat) (ts : List Trigger) : List FuncId → List FuncId
  | [] => []
  | u :: us =>
    match findChain closed ts u with
    | some (tr1, tr2) => (coalesced tr1 tr2 :: removeTwo tr1 tr2 u) :: us
    | none => u :: coalesceGo closed ts us

/-- Modelled from the spec: the chain-coalescing pass — a two-trigger chain
through an unobservable middle identifier with single incoming and single
outgoing edges is replaced by one trigger with the combined delay. -/
def coalescePass (closed : List Nat) (fs : List FuncId) : List FuncId :=
  coalesceGo closed (flattenUnits fs) fs

/-- Modelled from the spec: structural deduplication — structurally
identical objects (the identity-renaming case, which needs no fresh
identifiers from the allocator) are merged, keeping one copy. -/
def dedupPass (fs : List FuncId) : List FuncId :=
  fs.map (fun u => u.dedup)

/-- Total number of target objects across the function units. -/
def totalObjs (fs : List FuncId) : Nat :=
  (fs.map List.length).sum

/-- One full sweep, in the spec's tie-break order: dead-object elimination,
then constant folding, then coalescing, then boolean minimization, then
deduplication. -/
def sweepOnce (closed : List Nat) (fs : List FuncId) : List FuncId :=
  dedupPass (boolMinPass (coalescePass closed (constFoldPass (deadElimPass closed fs))))

/-- Sweeps applied iteratively to a fixed point, with an explicit bounded
iteration count guaranteeing termination. -/
def optimizeFuel (closed : List Nat) : Nat → List FuncId → List FuncId
  | 0, fs => fs
  | fuel + 1, fs =>
    if sweepOnce closed fs = fs then fs
    else optimizeFuel closed fuel (sweepOnce closed fs)

/-- Modelled from the spec: `optimize(func_ids, closed_groups)` — the five
rewrite passes applied iteratively to a fixed point, bounded by the input's
object count (each productive sweep removes at least one object, so the
bound is never the reason iteration stops). -/
def optimize (fs : List FuncId) (closed : List Nat) : List FuncId :=
  optimizeFuel closed (totalObjs fs + 1) fs

/-- Per-frame activation propagation: `activeHist ts init t` lists the
activation state of every frame from `t` (head) down to `0` (last).  An
identifier is active at frame `t+1` when it was already active, or when
some trigger targeting it had its condition hold `delay` frames earlier. -/
def activeHist (ts : List Trigger) (init : Nat → Bool) : Nat → List (Nat → Bool)
  | 0 => [init]
  | t + 1 =>
    let h := activeHist ts init t
    (fun g => h.headD init g ||
      ts.any (fun tr => decide (tr.target = g) && decide (tr.delay ≤ t) &&
        evalCond (h.getD tr.delay init) tr.cond)) :: h

/-- Whether identifier `g` is active at frame `t`. -/
def active (ts : List Trigger) (init : Nat → Bool) (t : Nat) (g : Nat) : Bool :=
  (activeHist ts init t).headD init g

/-- Whether trigger `tr` fires at frame boundary `s` (its condition held
`delay` frames earlier). -/
def fires (ts : List Trigger) (init : Nat → Bool) (tr : Trigger) (s : Nat) : Bool :=
  decide (tr.delay ≤ s) &&
    evalCond (fun v => active ts init (s - tr.delay) v) tr.cond

theorem evalCond_congr (a b : Nat → Bool) (c : Cond)
    (h : ∀ v ∈ condVars c, a v = b v) : evalCond a c = evalCond b c := by
  induction c with
  | lit b0 => rfl
  | var g => exact h g (by simp [condVars])
  | and c1 c2 ih1 ih2 =>
    simp only [evalCond]
    rw [ih1 (fun v hv => h v (by simp only [condVars, List.mem_append]; exact Or.inl hv)),
      ih2 (fun v hv => h v (by simp only [condVars, List.mem_append]; exact Or.inr hv))]
  | or c1 c2 ih1 ih2 =>
    simp only [evalCond]
    rw [ih1 (fun v hv => h v (by simp only [condVars, List.mem_append]; exact Or.inl hv)),
      ih2 (fun v hv => h v (by simp only [condVars, List.mem_append]; exact Or.inr hv))]
  | not c1 ih1 =>
    simp only [evalCond]
    rw [ih1 (fun v hv => h v (by simpa [condVars] using hv))]

theorem any_congr_mem (l : List Trigger) (p q : Trigger → Bool)
    (h : ∀ a ∈ l, p a = q a) : l.any p = l.any q := by
  induction l with
  | nil => rfl
  | cons a l ih =>
    simp only [List.any_cons]
    rw [h a (by simp), ih (fun b hb => h b (by simp [hb]))]

theorem any_filter_eq (l : List Trigger) (p q : Trigger → Bool) :
    (l.filter p).any q = l.any (fun a => p a && q a) := by
  induction l with
  | nil => rfl
  | cons a l ih =>
    cases hp : p a <;> simp [List.filter_cons, hp, ih]

theorem any_or_split (l : List Trigger) (p q : Trigger → Bool) :
    l.any (fun a => p a || q a) = (l.any p || l.any q) := by
  induction l with
  | nil => rfl
  | cons a l ih =>
    simp only [List.any_cons, ih]
    cases p a <;> cases q a <;> simp

theorem bool_eq_of_iff {a b : Bool} (h : a = true ↔ b = true) : a = b := by
  cases a <;> cases b <;> simp_all

theorem any_mem_eq (l l2 : List Trigger) (p : Trigger → Bool)
    (h : ∀ x, x ∈ l ↔ x ∈ l2) : l.any p = l2.any p := by
  apply bool_eq_of_iff
  simp only [List.any_eq_true]
  constructor
  · rintro ⟨x, hx, hp⟩
    exact ⟨x, (h x).mp hx, hp⟩
  · rintro ⟨x, hx, hp⟩
    exact ⟨x, (h x).mpr hx, hp⟩

theorem mem_allVars {ts : List Trigger} {tr : Trigger} {v : Nat}
    (htr : tr ∈ ts) (hv : v ∈ condVars tr.cond) : v ∈ allVars ts := by
  simp only [allVars, List.mem_flatten]
  exact ⟨condVars tr.cond, List.mem_map_of_mem _ htr, hv⟩

theorem activeHist_getD (ts : List Trigger) (init : Nat → Bool) :
    ∀ t d, d ≤ t → ∀ v,
      ((activeHist ts init t).getD d init) v = active ts init (t - d) v := by
  intro t
  induction t with
  | zero =>
    intro d hd v
    have hd0 : d = 0 := Nat.le_zero.mp hd
    subst hd0
    rfl
  | succ t ih =>
    intro d hd v
    match d with
    | 0 => rfl
    | d2 + 1 =>
      have hstep : (activeHist ts init (t + 1)).getD (d2 + 1) init =
          (activeHist ts init t).getD d2 init := rfl
      rw [hstep]
      simp only [Nat.succ_sub_succ]
      exact ih d2 (by omega) v

theorem active_succ (ts : List Trigger) (init : Nat → Bool) (t g : Nat) :
    active ts init (t + 1) g =
      (active ts init t g ||
        ts.any (fun tr => decide (tr.target = g) && decide (tr.delay ≤ t) &&
          evalCond (fun s => active ts init (t - tr.delay) s) tr.cond)) := by
  have hmain : ∀ tr ∈ ts,
      (decide (tr.target = g) && decide (tr.delay ≤ t) &&
        evalCond ((activeHist ts init t).getD tr.delay init) tr.cond) =
      (decide (tr.target = g) && decide (tr.delay ≤ t) &&
        evalCond (fun s => active ts init (t - tr.delay) s) tr.cond) := by
    intro tr _
    by_cases hd : tr.delay ≤ t
    · have he : evalCond ((activeHist ts init t).getD tr.delay init) tr.cond =
          evalCond (fun s => active ts init (t - tr.delay) s) tr.cond :=
        evalCond_congr _ _ tr.cond
          (fun v _ => activeHist_getD ts init t tr.delay hd v)
      rw [he]
    · have hdf : decide (tr.delay ≤ t) = false := by simpa using hd
      simp [hdf]
  show (activeHist ts init (t + 1)).headD init g = _
  simp only [activeHist, List.headD_cons]
  rw [any_congr_mem ts _ _ hmain]
  rfl

theorem active_succ_fires (ts : List Trigger) (init : Nat → Bool) (t g : Nat) :
    active ts init (t + 1) g =
      (active ts init t g ||
        ts.any (fun tr => decide (tr.target = g) && fires ts init tr t)) := by
  rw [active_succ]
  congr 1
  apply any_congr_mem
  intro tr _
  rw [fires, Bool.and_assoc]

theorem active_char (ts : List Trigger) (init : Nat → Bool) :
    ∀ t g, active ts init t g =
      (init g || ts.any (fun tr => decide (tr.target = g) &&
        (List.range t).any (fun s => fires ts init tr s))) := by
  intro t
  induction t with
  | zero =>
    intro g
    have hz : ∀ tr ∈ ts,
        (decide (tr.target = g) && (List.range 0).any (fun s => fires ts init tr s)) =
        (fun _ => false) tr := by
      intro tr _
      simp
    show init g = _
    rw [any_congr_mem ts _ _ hz]
    simp
  | succ t ih =>
    intro g
    rw [active_succ_fires, ih g]
    have hsplit : ∀ tr ∈ ts,
        (decide (tr.target = g) && (List.range (t + 1)).any (fun s => fires ts init tr s)) =
        ((decide (tr.target = g) && (List.range t).any (fun s => fires ts init tr s)) ||
          (decide (tr.target = g) && fires ts init tr t)) := by
      intro tr _
      rw [List.range_succ, List.any_append]
      simp only [List.any_cons, List.any_nil, Bool.or_false]
      cases decide (tr.target = g) <;>
        cases (List.range t).any (fun s => fires ts init tr s) <;>
        cases fires ts init tr t <;> simp
    rw [any_congr_mem ts _ _ hsplit, any_or_split]
    cases init g <;> simp [Bool.or_assoc]

/-- Dead-object elimination preserves the activation sequence of every
externally observable identifier: one in ClosedGroups or read by some
trigger of the graph. -/
theorem active_filter_eq (ts : List Trigger) (closed : List Nat) (init : Nat → Bool) :
    ∀ t g, g ∈ closed ∨ g ∈ allVars ts →
      active ts init t g = active (ts.filter (keepTrigger closed ts)) init t g := by
  intro t
  induction t using Nat.strong_induction_on with
  | _ t ih =>
    intro g hg
    match t with
    | 0 => rfl
    | t + 1 =>
      rw [active_succ, active_succ]
      have h1 : active ts init t g =
          active (ts.filter (keepTrigger closed ts)) init t g :=
        ih t (by omega) g hg
      rw [h1]
      congr 1
      have hstep1 : ts.any (fun tr => decide (tr.target = g) && decide (tr.delay ≤ t) &&
            evalCond (fun s => active ts init (t - tr.delay) s) tr.cond) =
          ts.any (fun tr => decide (tr.target = g) && decide (tr.delay ≤ t) &&
            evalCond (fun s => active (ts.filter (keepTrigger closed ts)) init
              (t - tr.delay) s) tr.cond) := by
        apply any_congr_mem
        intro tr htr
        by_cases ht : tr.target = g
        · by_cases hd : tr.delay ≤ t
          · have he := evalCond_congr
              (fun s => active ts init (t - tr.delay) s)
              (fun s => active (ts.filter (keepTrigger closed ts)) init (t - tr.delay) s)
              tr.cond
              (fun v hv => ih (t - tr.delay) (by omega) v (Or.inr (mem_allVars htr hv)))
            rw [he]
          · have hdf : decide (tr.delay ≤ t) = false := by simpa using hd
            simp [hdf]
        · have htf : decide (tr.target = g) = false := by simpa using ht
          simp [htf]
      rw [hstep1, any_filter_eq]
      apply any_congr_mem
      intro tr htr
      cases hF : (decide (tr.target = g) && decide (tr.delay ≤ t) &&
          evalCond (fun s => active (ts.filter (keepTrigger closed ts)) init
            (t - tr.delay) s) tr.cond) with
      | false => simp [hF]
      | true =>
        have htg : tr.target = g := by
          simp only [Bool.and_eq_true, decide_eq_true_eq] at hF
          exact hF.1.1
        have hkeep : keepTrigger closed ts tr = true := by
          rcases hg with hc | hv
          · simp [keepTrigger, htg, hc]
          · simp [keepTrigger, htg, hv]
        simp [hkeep, hF]

theorem flatten_map_filter (fs : List FuncId) (p : Trigger → Bool) :
    (fs.map (fun u => u.filter p)).flatten = fs.flatten.filter p := by
  induction fs with
  | nil => rfl
  | cons u fs ih =>
    simp only [List.map_cons, List.flatten_cons, List.filter_append, ih]
theorem absorbs_sound (act : Nat → Bool) (x y : Cond) (h : absorbs x y = true) :
    (evalCond act x && evalCond act y) = evalCond act x := by
  cases y with
  | or p q =>
    simp only [absorbs, Bool.or_eq_true, beq_iff_eq] at h
    rcases h with h | h <;> subst h <;> simp only [evalCond]
    · cases evalCond act x <;> simp
    · cases evalCond act x <;> cases evalCond act p <;> simp
  | lit b => simp [absorbs] at h
  | var g => simp [absorbs] at h
  | and p q => simp [absorbs] at h
  | not a => simp [absorbs] at h

theorem coabsorbs_sound (act : Nat → Bool) (x y : Cond) (h : coabsorbs x y = true) :
    (evalCond act x || evalCond act y) = evalCond act x := by
  cases y with
  | and p q =>
    simp only [coabsorbs, Bool.or_eq_true, beq_iff_eq] at h
    rcases h with h | h <;> subst h <;> simp only [evalCond]
    · cases evalCond act x <;> simp
    · cases evalCond act x <;> cases evalCond act p <;> simp
  | lit b => simp [coabsorbs] at h
  | var g => simp [coabsorbs] at h
  | or p q => simp [coabsorbs] at h
  | not a => simp [coabsorbs] at h

theorem andSimp_sound (act : Nat → Bool) (a b : Cond) :
    evalCond act (andSimp a b) = (evalCond act a && evalCond act b) := by
  unfold andSimp
  split_ifs with h1 h2 h3 h4 h5 h6 h7
  · rcases h1 with h | h <;> subst h <;> simp [evalCond]
  · subst h2; simp [evalCond]
  · subst h3; simp [evalCond]
  · subst h4; cases evalCond act a <;> simp
  · rcases h5 with h | h <;> subst h <;> simp only [evalCond]
    · cases evalCond act b <;> simp
    · cases evalCond act a <;> simp
  · exact (absorbs_sound act a b h6).symm
  · have hba := absorbs_sound act b a h7
    rw [Bool.and_comm] at hba
    exact hba.symm
  · rfl

theorem orSimp_sound (act : Nat → Bool) (a b : Cond) :
    evalCond act (orSimp a b) = (evalCond act a || evalCond act b) := by
  unfold orSimp
  split_ifs with h1 h2 h3 h4 h5 h6 h7
  · rcases h1 with h | h <;> subst h <;> simp [evalCond]
  · subst h2; simp [evalCond]
  · subst h3; simp [evalCond]
  · subst h4; cases evalCond act a <;> simp
  · rcases h5 with h | h <;> subst h <;> simp only [evalCond]
    · cases evalCond act b <;> simp
    · cases evalCond act a <;> simp
  · exact (coabsorbs_sound act a b h6).symm
  · have hba := coabsorbs_sound act b a h7
    rw [Bool.or_comm] at hba
    exact hba.symm
  · rfl

theorem notSimp_sound (act : Nat → Bool) (c : Cond) :
    evalCond act (notSimp c) = !evalCond act c := by
  cases c <;> simp [notSimp, evalCond]

theorem simplifyCond_sound (act : Nat → Bool) (c : Cond) :
    evalCond act (simplifyCond c) = evalCond act c := by
  induction c with
  | lit b => rfl
  | var g => rfl
  | and a b iha ihb =>
    show evalCond act (andSimp (simplifyCond a) (simplifyCond b)) = _
    rw [andSimp_sound, iha, ihb]
    rfl
  | or a b iha ihb =>
    show evalCond act (orSimp (simplifyCond a) (simplifyCond b)) = _
    rw [orSimp_sound, iha, ihb]
    rfl
  | not a iha =>
    show evalCond act (notSimp (simplifyCond a)) = _
    rw [notSimp_sound, iha]
    rfl

/-- Activation only depends on the set of triggers, not on their order or
multiplicity: the soundness core of structural deduplication. -/
theorem active_mem_congr (ts ts2 : List Trigger) (init : Nat → Bool)
    (hmem : ∀ x, x ∈ ts ↔ x ∈ ts2) :
    ∀ t g, active ts init t g = active ts2 init t g := by
  intro t
  induction t using Nat.strong_induction_on with
  | _ t ih =>
    intro g
    match t with
    | 0 => rfl
    | t + 1 =>
      rw [active_succ, active_succ, ih t (by omega) g]
      congr 1
      have hconv : ∀ tr ∈ ts,
          (decide (tr.target = g) && decide (tr.delay ≤ t) &&
            evalCond (fun s => active ts init (t - tr.delay) s) tr.cond) =
          (decide (tr.target = g) && decide (tr.delay ≤ t) &&
            evalCond (fun s => active ts2 init (t - tr.delay) s) tr.cond) := by
        intro tr _
        have he : evalCond (fun s => active ts init (t - tr.delay) s) tr.cond =
            evalCond (fun s => active ts2 init (t - tr.delay) s) tr.cond :=
          evalCond_congr _ _ tr.cond (fun v _ => ih (t - tr.delay) (by omega) v)
        rw [he]
      rw [any_congr_mem ts _ _ hconv]
      exact any_mem_eq ts ts2 _ hmem

/-- Replacing every condition by its minimized form preserves the
activation of every identifier: the soundness core of the
constant-folding and boolean-minimization passes. -/
theorem active_map_simp (ts : List Trigger) (init : Nat → Bool) :
    ∀ t g, active (ts.map simpTrigger) init t g = active ts init t g := by
  intro t
  induction t using Nat.strong_induction_on with
  | _ t ih =>
    intro g
    match t with
    | 0 => rfl
    | t + 1 =>
      rw [active_succ, active_succ, ih t (by omega) g]
      congr 1
      rw [List.any_map]
      apply any_congr_mem
      intro tr _
      show (decide ((simpTrigger tr).target = g) && decide ((simpTrigger tr).delay ≤ t) &&
          evalCond (fun s => active (ts.map simpTrigger) init (t - (simpTrigger tr).delay) s)
            (simpTrigger tr).cond) = _
      have ht : (simpTrigger tr).target = tr.target := rfl
      have hd : (simpTrigger tr).delay = tr.delay := rfl
      have hc : (simpTrigger tr).cond = simplifyCond tr.cond := rfl
      rw [ht, hd, hc]
      have h1 : evalCond (fun s => active (ts.map simpTrigger) init (t - tr.delay) s)
            (simplifyCond tr.cond) =
          evalCond (fun s => active ts init (t - tr.delay) s) (simplifyCond tr.cond) :=
        evalCond_congr _ _ _ (fun v _ => ih (t - tr.delay) (by omega) v)
      rw [h1, simplifyCond_sound]

/-- Removing triggers whose condition can never hold preserves the
activation of every identifier: the soundness core of constant folding's
delete-if-always-false rule. -/
theorem active_filter_const_false (ts : List Trigger) (p : Trigger → Bool)
    (init : Nat → Bool)
    (hp : ∀ tr ∈ ts, p tr = false → ∀ act : Nat → Bool, evalCond act tr.cond = false) :
    ∀ t g, active (ts.filter p) init t g = active ts init t g := by
  intro t
  induction t using Nat.strong_induction_on with
  | _ t ih =>
    intro g
    match t with
    | 0 => rfl
    | t + 1 =>
      rw [active_succ, active_succ, ih t (by omega) g]
      congr 1
      rw [any_filter_eq]
      apply any_congr_mem
      intro tr htr
      have he : evalCond (fun s => active (ts.filter p) init (t - tr.delay) s) tr.cond =
          evalCond (fun s => active ts init (t - tr.delay) s) tr.cond :=
        evalCond_congr _ _ tr.cond (fun v _ => ih (t - tr.delay) (by omega) v)
      cases hptr : p tr with
      | true => rw [he]; simp
      | false =>
        have h0 := hp tr htr hptr
        simp [h0]

/-- A concrete input: a unit with a dead trigger (identifier 9 is unread
and not closed) and a live trigger targeting the closed identifier 3. -/
def sampleUnits : List FuncId :=
  [[{ cond := .var 1, target := 9, delay := 0 },
    { cond := .var 1, target := 3, delay := 1 }]]

theorem F_true_iff (ts : List Trigger) (init : Nat → Bool) (tr : Trigger) (g t : Nat) :
    ((decide (tr.target = g) && (List.range t).any (fun s => fires ts init tr s)) = true) ↔
    (tr.target = g ∧ ∃ s, s < t ∧ tr.delay ≤ s ∧
      evalCond (fun v => active ts init (s - tr.delay) v) tr.cond = true) := by
  simp only [Bool.and_eq_true, decide_eq_true_eq, List.any_eq_true, List.mem_range, fires]

theorem filter_length_one_unique {p : Trigger → Bool} {l : List Trigger}
    (hlen : (l.filter p).length = 1) {a b : Trigger}
    (ha : a ∈ l) (hpa : p a = true) (hb : b ∈ l) (hpb : p b = true) : b = a := by
  obtain ⟨x, hx⟩ := List.length_eq_one.mp hlen
  have hax : a ∈ l.filter p := List.mem_filter.mpr ⟨ha, hpa⟩
  have hbx : b ∈ l.filter p := List.mem_filter.mpr ⟨hb, hpb⟩
  rw [hx, List.mem_singleton] at hax hbx
  rw [hax, hbx]

theorem chainCandidate_spec {closed : List Nat} {ts : List Trigger} {tr1 tr2 : Trigger}
    (h : chainCandidate closed ts tr1 tr2 = true) :
    tr1.target ∉ closed ∧ tr2.cond = Cond.var tr1.target ∧
    tr2.target ≠ tr1.target ∧ tr1.target ∉ condVars tr1.cond ∧
    (ts.filter (fun tr => tr.target == tr1.target)).length = 1 ∧
    (ts.filter (fun tr => decide (tr1.target ∈ condVars tr.cond))).length = 1 := by
  simp only [chainCandidate, Bool.and_eq_true, decide_eq_true_eq, beq_iff_eq] at h
  obtain ⟨⟨⟨⟨⟨hA, hB⟩, hC⟩, hD⟩, hE⟩, hF⟩ := h
  exact ⟨hA, hB, hC, hD, hE, hF⟩

/-- Correctness of one chain-coalescing rewrite: replacing the chain
`tr1 → B → tr2.target` (with `B = tr1.target` internal, singly written and
singly read) by the single combined trigger preserves the activation
sequence of every identifier other than `B`, provided the initial stimulus
touches only externally visible identifiers. -/
theorem coalesce_core (ts : List Trigger) (closed : List Nat) (init : Nat → Bool)
    (tr1 tr2 : Trigger) (h1 : tr1 ∈ ts) (h2 : tr2 ∈ ts)
    (hcand : chainCandidate closed ts tr1 tr2 = true)
    (hinit : ∀ v, init v = true → v ∈ closed) :
    ∀ t g, g ≠ tr1.target →
      active ts init t g =
        active (coalesced tr1 tr2 :: removeTwo tr1 tr2 ts) init t g := by
  obtain ⟨hBnc, hc2, hCneB, hc1B, hlt, hlr⟩ := chainCandidate_spec hcand
  have huniqT : ∀ tr ∈ ts, tr.target = tr1.target → tr = tr1 := by
    intro tr htr he
    exact filter_length_one_unique hlt h1 (by simp) htr (by simp [he])
  have huniqR : ∀ tr ∈ ts, tr1.target ∈ condVars tr.cond → tr = tr2 := by
    intro tr htr he
    refine filter_length_one_unique hlr h2 ?_ htr (by simp [he])
    simp [hc2, condVars]
  have hinitB : init tr1.target = false := by
    cases hI : init tr1.target with
    | false => rfl
    | true => exact absurd (hinit _ hI) hBnc
  have hmemRem : ∀ x, x ∈ removeTwo tr1 tr2 ts ↔ (x ∈ ts ∧ x ≠ tr1 ∧ x ≠ tr2) := by
    intro x
    simp [removeTwo, List.mem_filter]
  have hRemNoB : ∀ tr ∈ removeTwo tr1 tr2 ts, tr1.target ∉ condVars tr.cond := by
    intro tr htr hmem
    obtain ⟨hts, _, hn2⟩ := (hmemRem tr).mp htr
    exact hn2 (huniqR tr hts hmem)
  have hcT : (coalesced tr1 tr2).target = tr2.target := rfl
  have hcD : (coalesced tr1 tr2).delay = tr1.delay + tr2.delay + 1 := rfl
  have hcC : (coalesced tr1 tr2).cond = tr1.cond := rfl
  intro t
  induction t using Nat.strong_induction_on with
  | _ t ih =>
    intro g hgB
    have hcondConv : ∀ (c : Cond), tr1.target ∉ condVars c → ∀ u, u < t →
        evalCond (fun v => active ts init u v) c =
        evalCond (fun v => active (coalesced tr1 tr2 :: removeTwo tr1 tr2 ts) init u v) c := by
      intro c hcB u hu
      apply evalCond_congr
      intro v hv
      exact ih u hu v (fun hveq => hcB (hveq ▸ hv))
    rw [active_char ts init t g,
      active_char (coalesced tr1 tr2 :: removeTwo tr1 tr2 ts) init t g]
    congr 1
    apply bool_eq_of_iff
    constructor
    · intro hAny
      obtain ⟨tr, htr, hF⟩ := List.any_eq_true.mp hAny
      rw [F_true_iff] at hF
      obtain ⟨htgt, s, hs, hds, hev⟩ := hF
      by_cases htr1 : tr = tr1
      · subst htr1
        exact absurd htgt.symm hgB
      · by_cases htr2 : tr = tr2
        · subst htr2
          rw [hc2] at hev
          simp only [evalCond] at hev
          rw [active_char ts init (s - tr.delay) tr1.target, hinitB,
            Bool.false_or] at hev
          obtain ⟨trB, htrB, hFB⟩ := List.any_eq_true.mp hev
          rw [F_true_iff] at hFB
          obtain ⟨htB, s2, hs2, hds2, hevB⟩ := hFB
          have heq1 : trB = tr1 := huniqT trB htrB htB
          subst heq1
          have hvlt : s2 - trB.delay < t := by omega
          rw [hcondConv trB.cond hc1B (s2 - trB.delay) hvlt] at hevB
          apply List.any_eq_true.mpr
          refine ⟨coalesced trB tr, List.mem_cons_self _ _, ?_⟩
          rw [F_true_iff]
          refine ⟨htgt, (s2 - trB.delay) + trB.delay + tr.delay + 1, by omega, ?_, ?_⟩
          · rw [hcD]
            omega
          · have harith : ((s2 - trB.delay) + trB.delay + tr.delay + 1) -
                (coalesced trB tr).delay = s2 - trB.delay := by
              rw [hcD]
              omega
            rw [harith, hcC]
            exact hevB
        · have htrRem : tr ∈ removeTwo tr1 tr2 ts := (hmemRem tr).mpr ⟨htr, htr1, htr2⟩
          have hnoB : tr1.target ∉ condVars tr.cond := hRemNoB tr htrRem
          rw [hcondConv tr.cond hnoB (s - tr.delay) (by omega)] at hev
          apply List.any_eq_true.mpr
          refine ⟨tr, List.mem_cons_of_mem _ htrRem, ?_⟩
          rw [F_true_iff]
          exact ⟨htgt, s, hs, hds, hev⟩
    · intro hAny
      obtain ⟨tr, htr, hF⟩ := List.any_eq_true.mp hAny
      rw [F_true_iff] at hF
      obtain ⟨htgt, s, hs, hds, hev⟩ := hF
      rcases List.mem_cons.mp htr with htrC | htrRem
      · subst htrC
        rw [hcD] at hds
        have hvlt : s - (tr1.delay + tr2.delay + 1) < t := by omega
        have hev2 : evalCond
            (fun v => active (coalesced tr1 tr2 :: removeTwo tr1 tr2 ts) init
              (s - (tr1.delay + tr2.delay + 1)) v) tr1.cond = true := by
          have harith : s - (coalesced tr1 tr2).delay =
              s - (tr1.delay + tr2.delay + 1) := by
            rw [hcD]
          rw [harith, hcC] at hev
          exact hev
        rw [← hcondConv tr1.cond hc1B _ hvlt] at hev2
        have hB : active ts init
            ((s - (tr1.delay + tr2.delay + 1)) + tr1.delay + 1) tr1.target = true := by
          rw [active_char, hinitB, Bool.false_or]
          apply List.any_eq_true.mpr
          refine ⟨tr1, h1, ?_⟩
          rw [F_true_iff]
          refine ⟨rfl, (s - (tr1.delay + tr2.delay + 1)) + tr1.delay,
            by omega, by omega, ?_⟩
          have harith : ((s - (tr1.delay + tr2.delay + 1)) + tr1.delay) - tr1.delay =
              s - (tr1.delay + tr2.delay + 1) := by omega
          rw [harith]
          exact hev2
        apply List.any_eq_true.mpr
        refine ⟨tr2, h2, ?_⟩
        rw [F_true_iff]
        refine ⟨htgt, s, hs, by omega, ?_⟩
        rw [hc2]
        simp only [evalCond]
        have harith2 : (s - (tr1.delay + tr2.delay + 1)) + tr1.delay + 1 =
            s - tr2.delay := by omega
        rw [harith2] at hB
        exact hB
      · obtain ⟨hts, _, _⟩ := (hmemRem tr).mp htrRem
        have hnoB : tr1.target ∉ condVars tr.cond := hRemNoB tr htrRem
        rw [← hcondConv tr.cond hnoB (s - tr.delay) (by omega)] at hev
        apply List.any_eq_true.mpr
        refine ⟨tr, hts, ?_⟩
        rw [F_true_iff]
        exact ⟨htgt, s, hs, hds, hev⟩

theorem chainPairs_mem {u : List Trigger} {p : Trigger × Trigger}
    (h : p ∈ chainPairs u) : p.1 ∈ u ∧ p.2 ∈ u := by
  simp only [chainPairs, List.mem_flatten, List.mem_map] at h
  obtain ⟨l, ⟨tr1, htr1, hl⟩, hpl⟩ := h
  subst hl
  obtain ⟨tr2, htr2, hp⟩ := List.mem_map.mp hpl
  subst hp
  exact ⟨htr1, htr2⟩

theorem findChain_spec {closed : List Nat} {ts u : List Trigger} {tr1 tr2 : Trigger}
    (h : findChain closed ts u = some (tr1, tr2)) :
    tr1 ∈ u ∧ tr2 ∈ u ∧ chainCandidate closed ts tr1 tr2 = true := by
  have hmem := List.mem_of_find?_eq_some h
  have hp := List.find?_some h
  have hmm := chainPairs_mem hmem
  exact ⟨hmm.1, hmm.2, hp⟩

theorem not_mem_of_countP_one {p : Trigger → Bool} {ts u l2 : List Trigger}
    {a : Trigger} (hsub : List.Sublist (u ++ l2) ts) (hcount : (ts.filter p).length = 1)
    (ha2 : a ∈ l2) (hpa : p a = true) : a ∉ u := by
  intro ha1
  have hc1 : 0 < u.countP p := List.countP_pos_iff.mpr ⟨a, ha1, hpa⟩
  have hc2 : 0 < l2.countP p := List.countP_pos_iff.mpr ⟨a, ha2, hpa⟩
  have hle : (u ++ l2).countP p ≤ ts.countP p := hsub.countP_le p
  rw [List.countP_append] at hle
  rw [← List.countP_eq_length_filter] at hcount
  omega

theorem coalesceGo_spec (closed : List Nat) (ts : List Trigger) :
    ∀ us : List FuncId, List.Sublist (flattenUnits us) ts →
      coalesceGo closed ts us = us ∨
      ∃ tr1 tr2, tr1 ∈ ts ∧ tr2 ∈ ts ∧ chainCandidate closed ts tr1 tr2 = true ∧
        tr1 ∈ flattenUnits us ∧ tr2 ∈ flattenUnits us ∧
        (∀ x, x ∈ flattenUnits (coalesceGo closed ts us) ↔
          x ∈ coalesced tr1 tr2 :: removeTwo tr1 tr2 (flattenUnits us)) := by
  intro us
  induction us with
  | nil =>
    intro _
    left
    rfl
  | cons u rest ih =>
    intro hsub
    have hflat : flattenUnits (u :: rest) = u ++ flattenUnits rest := rfl
    rw [hflat] at hsub
    have hsubRest : List.Sublist (flattenUnits rest) ts :=
      List.Sublist.trans (List.sublist_append_right u _) hsub
    cases hfc : findChain closed ts u with
    | none =>
      rcases ih hsubRest with heq | ⟨tr1, tr2, ht1, ht2, hcand, hm1, hm2, hmem⟩
      · left
        show (match findChain closed ts u with
          | some (tr1, tr2) => (coalesced tr1 tr2 :: removeTwo tr1 tr2 u) :: rest
          | none => u :: coalesceGo closed ts rest) = u :: rest
        rw [hfc, heq]
      · right
        obtain ⟨hBnc, hc2, _, hc1B, hlt, hlr⟩ := chainCandidate_spec hcand
        have hp1 : (fun tr => tr.target == tr1.target) tr1 = true := by simp
        have hp2 : (fun tr => decide (tr1.target ∈ condVars tr.cond)) tr2 = true := by
          simp [hc2, condVars]
        have hNo1 : tr1 ∉ u := not_mem_of_countP_one hsub hlt hm1 hp1
        have hNo2 : tr2 ∉ u := not_mem_of_countP_one hsub hlr hm2 hp2
        refine ⟨tr1, tr2, ht1, ht2, hcand, ?_, ?_, ?_⟩
        · rw [hflat]
          exact List.mem_append_right u hm1
        · rw [hflat]
          exact List.mem_append_right u hm2
        · intro x
          have hres : coalesceGo closed ts (u :: rest) = u :: coalesceGo closed ts rest := by
            show (match findChain closed ts u with
              | some (tr1, tr2) => (coalesced tr1 tr2 :: removeTwo tr1 tr2 u) :: rest
              | none => u :: coalesceGo closed ts rest) = _
            rw [hfc]
          rw [hres]
          have hflat2 : flattenUnits (u :: coalesceGo closed ts rest) =
              u ++ flattenUnits (coalesceGo closed ts rest) := rfl
          rw [hflat2, hflat]
          have hra : removeTwo tr1 tr2 (u ++ flattenUnits rest) =
              removeTwo tr1 tr2 u ++ removeTwo tr1 tr2 (flattenUnits rest) :=
            List.filter_append _ _
          rw [hra]
          have hru : removeTwo tr1 tr2 u = u := by
            apply List.filter_eq_self.mpr
            intro x2 hx2
            simp only [Bool.and_eq_true, decide_eq_true_eq]
            exact ⟨fun he => hNo1 (he ▸ hx2), fun he => hNo2 (he ▸ hx2)⟩
          rw [hru]
          simp only [List.mem_append, List.mem_cons, hmem x]
          try tauto
    | some pr =>
      obtain ⟨tr1, tr2⟩ := pr
      obtain ⟨hu1, hu2, hcand⟩ := findChain_spec hfc
      obtain ⟨hBnc, hc2, _, hc1B, hlt, hlr⟩ := chainCandidate_spec hcand
      right
      have ht1 : tr1 ∈ ts := hsub.subset (List.mem_append_left _ hu1)
      have ht2 : tr2 ∈ ts := hsub.subset (List.mem_append_left _ hu2)
      have hp1 : (fun tr => tr.target == tr1.target) tr1 = true := by simp
      have hp2 : (fun tr => decide (tr1.target ∈ condVars tr.cond)) tr2 = true := by
        simp [hc2, condVars]
      have hNo1 : tr1 ∉ flattenUnits rest := fun hmem1 =>
        (not_mem_of_countP_one hsub hlt hmem1 hp1) hu1
      have hNo2 : tr2 ∉ flattenUnits rest := fun hmem2 =>
        (not_mem_of_countP_one hsub hlr hmem2 hp2) hu2
      refine ⟨tr1, tr2, ht1, ht2, hcand, ?_, ?_, ?_⟩
      · rw [hflat]
        exact List.mem_append_left _ hu1
      · rw [hflat]
        exact List.mem_append_left _ hu2
      · intro x
        have hres : coalesceGo closed ts (u :: rest) =
            (coalesced tr1 tr2 :: removeTwo tr1 tr2 u) :: rest := by
          show (match findChain closed ts u with
            | some (tr1, tr2) => (coalesced tr1 tr2 :: removeTwo tr1 tr2 u) :: rest
            | none => u :: coalesceGo closed ts rest) = _
          rw [hfc]
        rw [hres]
        have hflat2 : flattenUnits ((coalesced tr1 tr2 :: removeTwo tr1 tr2 u) :: rest) =
            (coalesced tr1 tr2 :: removeTwo tr1 tr2 u) ++ flattenUnits rest := rfl
        rw [hflat2, hflat]
        have hra : removeTwo tr1 tr2 (u ++ flattenUnits rest) =
            removeTwo tr1 tr2 u ++ removeTwo tr1 tr2 (flattenUnits rest) :=
          List.filter_append _ _
        rw [hra]
        have hrr : removeTwo tr1 tr2 (flattenUnits rest) = flattenUnits rest := by
          apply List.filter_eq_self.mpr
          intro x2 hx2
          simp only [Bool.and_eq_true, decide_eq_true_eq]
          exact ⟨fun he => hNo1 (he ▸ hx2), fun he => hNo2 (he ▸ hx2)⟩
        rw [hrr]
        simp only [List.cons_append, List.mem_cons, List.mem_append]
        try tauto

theorem flatten_map_mapfilter (fs : List FuncId) (f : Trigger → Trigger)
    (q : Trigger → Bool) :
    (fs.map (fun u => (u.map f).filter q)).flatten = ((fs.flatten).map f).filter q := by
  induction fs with
  | nil => rfl
  | cons u fs ih =>
    simp only [List.map_cons, List.flatten_cons, List.map_append, List.filter_append, ih]

theorem flatten_map_map (fs : List FuncId) (f : Trigger → Trigger) :
    (fs.map (fun u => u.map f)).flatten = (fs.flatten).map f := by
  induction fs with
  | nil => rfl
  | cons u fs ih => simp only [List.map_cons, List.flatten_cons, List.map_append, ih]

theorem deadElim_preserves (closed : List Nat) (fs : List FuncId) (init : Nat → Bool)
    (t g : Nat) (hg : g ∈ closed) :
    active (flattenUnits fs) init t g =
      active (flattenUnits (deadElimPass closed fs)) init t g := by
  have hshape : flattenUnits (deadElimPass closed fs) =
      (flattenUnits fs).filter (keepTrigger closed (flattenUnits fs)) :=
    flatten_map_filter fs _
  rw [hshape]
  exact active_filter_eq (flattenUnits fs) closed init t g (Or.inl hg)

theorem constFold_preserves (fs : List FuncId) (init : Nat → Bool) (t g : Nat) :
    active (flattenUnits fs) init t g =
      active (flattenUnits (constFoldPass fs)) init t g := by
  have hshape : flattenUnits (constFoldPass fs) =
      ((flattenUnits fs).map simpTrigger).filter (fun tr => !(tr.cond == Cond.lit false)) :=
    flatten_map_mapfilter fs _ _
  rw [hshape]
  have h2 := active_filter_const_false ((flattenUnits fs).map simpTrigger)
      (fun tr => !(tr.cond == Cond.lit false)) init
      (by
        intro tr _ hpred act
        have hlitf : tr.cond = Cond.lit false := by
          have hpred2 : (!(tr.cond == Cond.lit false)) = false := hpred
          have : (tr.cond == Cond.lit false) = true := by
            cases hb : (tr.cond == Cond.lit false) with
            | true => rfl
            | false => rw [hb] at hpred2; simp at hpred2
          exact beq_iff_eq.mp this
        rw [hlitf]
        rfl) t g
  rw [h2, active_map_simp]

theorem boolMin_preserves (fs : List FuncId) (init : Nat → Bool) (t g : Nat) :
    active (flattenUnits fs) init t g =
      active (flattenUnits (boolMinPass fs)) init t g := by
  have hshape : flattenUnits (boolMinPass fs) = (flattenUnits fs).map simpTrigger :=
    flatten_map_map fs _
  rw [hshape]
  exact (active_map_simp (flattenUnits fs) init t g).symm

theorem dedup_preserves (fs : List FuncId) (init : Nat → Bool) (t g : Nat) :
    active (flattenUnits fs) init t g =
      active (flattenUnits (dedupPass fs)) init t g := by
  apply active_mem_congr
  intro x
  simp only [flattenUnits, dedupPass, List.mem_flatten, List.mem_map]
  constructor
  · rintro ⟨u, hu, hxu⟩
    exact ⟨u.dedup, ⟨u, hu, rfl⟩, List.mem_dedup.mpr hxu⟩
  · rintro ⟨l, ⟨u, hu, rfl⟩, hxl⟩
    exact ⟨u, hu, List.mem_dedup.mp hxl⟩

theorem coalescePass_preserves (closed : List Nat) (fs : List FuncId) (init : Nat → Bool)
    (hinit : ∀ v, init v = true → v ∈ closed) (t g : Nat) (hg : g ∈ closed) :
    active (flattenUnits fs) init t g =
      active (flattenUnits (coalescePass closed fs)) init t g := by
  rcases coalesceGo_spec closed (flattenUnits fs) fs (List.Sublist.refl _)
    with heq | ⟨tr1, tr2, ht1, ht2, hcand, _, _, hmem⟩
  · rw [coalescePass, heq]
  · have hgB : g ≠ tr1.target := by
      intro he
      obtain ⟨hBnc, _⟩ := chainCandidate_spec hcand
      exact hBnc (he ▸ hg)
    rw [coalescePass]
    calc active (flattenUnits fs) init t g
        = active (coalesced tr1 tr2 :: removeTwo tr1 tr2 (flattenUnits fs)) init t g :=
          coalesce_core (flattenUnits fs) closed init tr1 tr2 ht1 ht2 hcand hinit t g hgB
      _ = active (flattenUnits (coalesceGo closed (flattenUnits fs) fs)) init t g :=
          active_mem_congr _ _ init (fun x => (hmem x).symm) t g

theorem sweep_preserves (closed : List Nat) (fs : List FuncId) (init : Nat → Bool)
    (hinit : ∀ v, init v = true → v ∈ closed) (t g : Nat) (hg : g ∈ closed) :
    active (flattenUnits fs) init t g =
      active (flattenUnits (sweepOnce closed fs)) init t g := by
  rw [sweepOnce]
  calc active (flattenUnits fs) init t g
      = active (flattenUnits (deadElimPass closed fs)) init t g :=
        deadElim_preserves closed fs init t g hg
    _ = active (flattenUnits (constFoldPass (deadElimPass closed fs))) init t g :=
        constFold_preserves _ init t g
    _ = active (flattenUnits (coalescePass closed
          (constFoldPass (deadElimPass closed fs)))) init t g :=
        coalescePass_preserves closed _ init hinit t g hg
    _ = active (flattenUnits (boolMinPass (coalescePass closed
          (constFoldPass (deadElimPass closed fs))))) init t g :=
        boolMin_preserves _ init t g
    _ = active (flattenUnits (dedupPass (boolMinPass (coalescePass closed
          (constFoldPass (deadElimPass closed fs)))))) init t g :=
        dedup_preserves _ init t g

theorem optimizeFuel_preserves (closed : List Nat) (init : Nat → Bool)
    (hinit : ∀ v, init v = true → v ∈ closed) :
    ∀ (fuel : Nat) (fs : List FuncId) (t g : Nat), g ∈ closed →
      active (flattenUnits fs) init t g =
        active (flattenUnits (optimizeFuel closed fuel fs)) init t g := by
  intro fuel
  induction fuel with
  | zero =>
    intro fs t g _
    rfl
  | succ fuel ih =>
    intro fs t g hg
    simp only [optimizeFuel]
    by_cases h : sweepOnce closed fs = fs
    · rw [if_pos h]
    · rw [if_neg h]
      calc active (flattenUnits fs) init t g
          = active (flattenUnits (sweepOnce closed fs)) init t g :=
            sweep_preserves closed fs init hinit t g hg
        _ = active (flattenUnits (optimizeFuel closed fuel (sweepOnce closed fs))) init t g :=
            ih (sweepOnce closed fs) t g hg

/-- C2: the optimizer — all five passes iterated to their fixed point —
preserves per-frame activation propagation on every identifier in
ClosedGroups: simulating both graphs gives the identical activation of `g`
at every frame `t`.  The initial external stimulus is assumed to enter
through externally visible identifiers only (`hinit`): ClosedGroups are
the identifiers with externally visible meaning, and coalescing is sound
precisely because nothing outside the graph can directly activate the
internal middle identifier of a chain. -/
theorem optimize_preserves_closed_activation (fs : List FuncId) (closed : List Nat)
    (init : Nat → Bool) (t g : Nat) (hg : g ∈ closed)
    (hinit : ∀ v, init v = true → v ∈ closed) :
    active (flattenUnits fs) init t g =
      active (flattenUnits (optimize fs closed)) init t g := by
  rw [optimize]
  exact optimizeFuel_preserves closed init hinit (totalObjs fs + 1) fs t g hg

/-- Witness for C2 on a graph where the optimizer really removes a dead
trigger: the closed identifier 3's activation at frame 2 is unchanged. -/
theorem optimize_preserves_closed_activation_witness :
    active (flattenUnits sampleUnits) (fun s => decide (s = 1)) 2 3 =
      active (flattenUnits (optimize sampleUnits [1, 3])) (fun s => decide (s = 1)) 2 3 :=
  optimize_preserves_closed_activation sampleUnits [1, 3] (fun s => decide (s = 1)) 2 3
    (by decide)
    (fun v hv => by
      simp only [decide_eq_true_eq] at hv
      simp [hv])

theorem totalObjs_map_le (fs : List FuncId) (F : FuncId → FuncId)
    (hF : ∀ u ∈ fs, (F u).length ≤ u.length) :
    totalObjs (fs.map F) ≤ totalObjs fs := by
  unfold totalObjs
  rw [List.map_map]
  apply List.sum_le_sum
  intro u hu
  show (F u).length ≤ u.length
  exact hF u hu

theorem filter_length_lt_of_mem_not {l : List Trigger} {p : Trigger → Bool}
    {a : Trigger} (ha : a ∈ l) (hpa : p a = false) :
    (l.filter p).length < l.length := by
  induction l with
  | nil => simp at ha
  | cons b l ih =>
    rcases List.mem_cons.mp ha with rfl | hal
    · have hle := List.length_filter_le p l
      simp only [List.filter_cons, hpa, List.length_cons, if_false, Bool.false_eq_true]
      omega
    · cases hpb : p b
      · have hle := List.length_filter_le p l
        simp only [List.filter_cons, hpb, List.length_cons, if_false, Bool.false_eq_true]
        omega
      · have hrec := ih hal
        simp only [List.filter_cons, hpb, List.length_cons, if_true]
        omega

theorem totalObjs_coalesceGo (closed : List Nat) (ts : List Trigger) :
    ∀ us : List FuncId, totalObjs (coalesceGo closed ts us) ≤ totalObjs us := by
  intro us
  induction us with
  | nil => exact le_refl _
  | cons u rest ih =>
    cases hfc : findChain closed ts u with
    | none =>
      have hres : coalesceGo closed ts (u :: rest) = u :: coalesceGo closed ts rest := by
        show (match findChain closed ts u with
          | some (tr1, tr2) => (coalesced tr1 tr2 :: removeTwo tr1 tr2 u) :: rest
          | none => u :: coalesceGo closed ts rest) = _
        rw [hfc]
      rw [hres]
      unfold totalObjs at ih ⊢
      simp only [List.map_cons, List.sum_cons]
      omega
    | some pr =>
      obtain ⟨tr1, tr2⟩ := pr
      obtain ⟨hu1, _, _⟩ := findChain_spec hfc
      have hres : coalesceGo closed ts (u :: rest) =
          (coalesced tr1 tr2 :: removeTwo tr1 tr2 u) :: rest := by
        show (match findChain closed ts u with
          | some (tr1, tr2) => (coalesced tr1 tr2 :: removeTwo tr1 tr2 u) :: rest
          | none => u :: coalesceGo closed ts rest) = _
        rw [hfc]
      rw [hres]
      have hlt2 : (removeTwo tr1 tr2 u).length < u.length := by
        apply filter_length_lt_of_mem_not hu1
        simp
      unfold totalObjs
      simp only [List.map_cons, List.sum_cons, List.length_cons]
      omega

theorem totalObjs_deadElim (closed : List Nat) (fs : List FuncId) :
    totalObjs (deadElimPass closed fs) ≤ totalObjs fs :=
  totalObjs_map_le fs _ (fun u _ => List.length_filter_le _ u)

theorem totalObjs_constFold (fs : List FuncId) :
    totalObjs (constFoldPass fs) ≤ totalObjs fs :=
  totalObjs_map_le fs _ (fun u _ =>
    le_trans (List.length_filter_le _ _) (by rw [List.length_map]))

theorem totalObjs_coalesce (closed : List Nat) (fs : List FuncId) :
    totalObjs (coalescePass closed fs) ≤ totalObjs fs :=
  totalObjs_coalesceGo closed (flattenUnits fs) fs

theorem totalObjs_boolMin (fs : List FuncId) :
    totalObjs (boolMinPass fs) ≤ totalObjs fs :=
  totalObjs_map_le fs _ (fun u _ => by rw [List.length_map])

theorem totalObjs_dedup (fs : List FuncId) :
    totalObjs (dedupPass fs) ≤ totalObjs fs :=
  totalObjs_map_le fs _ (fun u _ => (List.dedup_sublist u).length_le)

theorem totalObjs_sweep (closed : List Nat) (fs : List FuncId) :
    totalObjs (sweepOnce closed fs) ≤ totalObjs fs := by
  rw [sweepOnce]
  exact le_trans (totalObjs_dedup _)
    (le_trans (totalObjs_boolMin _)
      (le_trans (totalObjs_coalesce closed _)
        (le_trans (totalObjs_constFold _) (totalObjs_deadElim closed fs))))

theorem totalObjs_optimizeFuel (closed : List Nat) :
    ∀ (fuel : Nat) (fs : List FuncId),
      totalObjs (optimizeFuel closed fuel fs) ≤ totalObjs fs := by
  intro fuel
  induction fuel with
  | zero => intro fs; exact le_refl _
  | succ fuel ih =>
    intro fs
    simp only [optimizeFuel]
    by_cases h : sweepOnce closed fs = fs
    · rw [if_pos h]
    · rw [if_neg h]
      exact le_trans (ih (sweepOnce closed fs)) (totalObjs_sweep closed fs)

/-- C5: the optimizer never increases the total object count: elimination,
folding and deduplication only remove objects, minimization rewrites them
in place, and coalescing replaces two objects by one. -/
theorem optimize_monotone (fs : List FuncId) (closed : List Nat) :
    totalObjs (optimize fs closed) ≤ totalObjs fs := by
  rw [optimize]
  exact totalObjs_optimizeFuel closed (totalObjs fs + 1) fs

/-- The optimizer really removes the dead trigger of `sampleUnits`. -/
theorem sampleUnits_optimize_eval :
    optimize sampleUnits [1, 3] = [[{ cond := .var 1, target := 3, delay := 1 }]] := by
  decide

/-- A two-trigger chain: identifier 1 reaches internal identifier 5 after
delay 2, which reaches the closed identifier 3 after delay 4. -/
def chainUnits : List FuncId :=
  [[{ cond := .var 1, target := 5, delay := 2 },
    { cond := .var 5, target := 3, delay := 4 }]]

/-- The optimizer coalesces the chain into a single trigger carrying the
combined delay. -/
theorem chainUnits_optimize_eval :
    optimize chainUnits [1, 3] = [[{ cond := .var 1, target := 3, delay := 7 }]] := by
  decide

/-- Coalescing preserves the observable timing: on both graphs the closed
identifier 3 is inactive at frame 7 and first active at frame 8. -/
theorem chainUnits_timing_preserved :
    (active (flattenUnits chainUnits) (fun s => decide (s = 1)) 7 3 = false) ∧
    (active (flattenUnits chainUnits) (fun s => decide (s = 1)) 8 3 = true) ∧
    (active (flattenUnits (optimize chainUnits [1, 3]))
      (fun s => decide (s = 1)) 7 3 = false) ∧
    (active (flattenUnits (optimize chainUnits [1, 3]))
      (fun s => decide (s = 1)) 8 3 = true) := by
  decide

/-! ## Optimizer gating in the driver (embedded from `main.rs`) -/

/-- The flag loop of `main.rs` lines 104–127 restricted to its effect on
`opti_enabled`: start `true`, set `false` on `--no-optimize` or `-o`, and
skip the argument consumed by a value-taking flag. -/
def optiEnabledOf : List String → Bool
  | [] => true
  | a :: rest =>
    if a == "--no-optimize" || a == "-o" then false
    else if a == "--level-name" || a == "-n" || a == "--save-file" || a == "-s"
        || a == "--included-path" || a == "-i" then
      match rest with
      | [] => true
      | _ :: rest2 => optiEnabledOf rest2
    else optiEnabledOf rest

/-- Whether any function unit has a non-empty object list (`has_stuff`,
`main.rs` line 212). -/
def hasStuff (fs : List FuncId) : Bool :=
  fs.any (fun u => !u.isEmpty)

/-- The optimizer guard of `main.rs` lines 213–216: run `optimize` when
optimization is enabled and some unit has objects, else pass the units on
unchanged. -/
def compileGate (args : List String) (fs : List FuncId) (closed : List Nat) :
    List FuncId :=
  if optiEnabledOf args && hasStuff fs then optimize fs closed else fs

/-- C10: the driver runs the optimizer exactly when no `--no-optimize`/`-o`
flag disabled it and some unit is non-empty; otherwise the units are passed
on completely unchanged; and either flag does disable it. -/
theorem optimize_gating (args : List String) (fs : List FuncId) (closed : List Nat) :
    (optiEnabledOf args = true → hasStuff fs = true →
      compileGate args fs closed = optimize fs closed)
    ∧ (optiEnabledOf args = false ∨ hasStuff fs = false →
      compileGate args fs closed = fs)
    ∧ optiEnabledOf ("--no-optimize" :: args) = false
    ∧ optiEnabledOf ("-o" :: args) = false := by
  refine ⟨?_, ?_, by rw [optiEnabledOf.eq_def]; simp, by rw [optiEnabledOf.eq_def]; simp⟩
  · intro he hs
    simp [compileGate, he, hs]
  · intro h
    rcases h with h | h <;> simp [compileGate, h]

/-- Witness for C10: with no flags and a non-empty unit the gate runs the
optimizer. -/
theorem optimize_gating_witness :
    compileGate [] sampleUnits [3] = optimize sampleUnits [3] :=
  (optimize_gating [] sampleUnits [3]).1 (by rfl) (by rfl)

end Spwn
